import Mathlib

/-!
Verification development for the hackontainer OCI runtime.

Shallow embedding of the container lifecycle engine:
  - `src/libcontainer/factory.go`   (Create, Load, validateID)
  - `src/libcontainer/container.go` (Start, Delete, Status, saveState, the reaper)
  - `src/libcontainer/process.go`   (startTimeToUint64)
  - the `config` package (Load/NormalizeRoot/Validate) embedded in the repo
  - the relevant parts of Go's path/filepath stdlib (Base, Clean, Join) that
    the code calls, specialised to unix ('/' is the only separator).

Strings handled character-wise are modelled as `List Char`; machine integers
are `Nat` (pids and timestamps in the source are non-negative and never
overflow in the modelled paths).  Filesystem effects are made explicit:
functions take the current file contents as arguments and return the new
contents, and where the order of syscalls matters the effect trace is
modelled as a list of operations.
-/

namespace Hackontainer

/-! ## Go path/filepath (unix), as called by factory.go -/

/-- Strip trailing '/' characters: the first loop of Go filepath.Base. -/
def dropTrailingSep (s : List Char) : List Char :=
  (s.reverse.dropWhile (fun c => c = '/')).reverse

/-- The suffix after the last '/' (the whole string when no '/' occurs):
Go filepath.Base's LastIndex slice. -/
def afterLastSep (s : List Char) : List Char :=
  (s.reverse.takeWhile (fun c => c ≠ '/')).reverse

/-- Go filepath.Base for unix paths.
Empty path gives ".", an all-separator path gives "/". -/
def goBase (s : List Char) : List Char :=
  if s = [] then ['.']
  else
    let t := dropTrailingSep s
    let u := afterLastSep t
    if u = [] then ['/'] else u

/-- factory.go:118-128.  `len(id) > 1024` is rejected, then any id with
`filepath.Base(id) != id` is rejected. -/
def validateID (id : List Char) : Except String Unit :=
  if id.length > 1024 then .error "container ID too long"
  else if goBase id ≠ id then .error "invalid container ID"
  else .ok ()

/-- The backtracking loop of Go filepath.Clean's ".." case: after the initial
`out.w--`, keep decrementing `w` while `w > dotdot` and the buffer char at
position `w` is not '/'.  Returns the final `w`. -/
def btFind (out : List Char) (dotdot : Nat) : Nat → Nat
  | 0 => 0
  | w + 1 => if dotdot < w + 1 ∧ out.getD (w + 1) ' ' ≠ '/' then btFind out dotdot w else w + 1

/-- Go filepath.Clean ".." backtracking: drop the last path element of the
output buffer (never called on an empty buffer by `cleanLoop`). -/
def backtrack (out : List Char) (dotdot : Nat) : List Char :=
  out.take (btFind out dotdot (out.length - 1))

/-- The scanning loop of Go filepath.Clean (unix).  `rem` is the unread part
of the path, `out` the output buffer, `dotdot` the index limiting ".."
backtracking.  Fuel decreases by one per step while `rem` shrinks by at
least one character per step, so fuel = initial `rem` length is exact. -/
def cleanLoop (rooted : Bool) : Nat → List Char → List Char → Nat → List Char
  | 0, _, out, _ => out
  | _ + 1, [], out, _ => out
  | fuel + 1, c :: rest, out, dotdot =>
    if c = '/' then
      cleanLoop rooted fuel rest out dotdot
    else if c = '.' ∧ (rest = [] ∨ rest.headD ' ' = '/') then
      cleanLoop rooted fuel rest out dotdot
    else if c = '.' ∧ rest.headD ' ' = '.' ∧ (rest.tail = [] ∨ rest.tail.headD ' ' = '/') then
      if dotdot < out.length then
        cleanLoop rooted fuel rest.tail (backtrack out dotdot) dotdot
      else if rooted = false then
        let out2 := (if out.length ≠ 0 then out ++ ['/'] else out) ++ ['.', '.']
        cleanLoop rooted fuel rest.tail out2 out2.length
      else
        cleanLoop rooted fuel rest.tail out dotdot
    else
      let out2 := if (rooted = true ∧ out.length ≠ 1) ∨ (rooted = false ∧ out.length ≠ 0)
        then out ++ ['/'] else out
      let comp := (c :: rest).takeWhile (fun x => x ≠ '/')
      cleanLoop rooted fuel ((c :: rest).dropWhile (fun x => x ≠ '/')) (out2 ++ comp) dotdot

/-- Go filepath.Clean for unix paths. -/
def goCleanPath (p : List Char) : List Char :=
  if p = [] then ['.']
  else
    let out :=
      if p.headD ' ' = '/' then cleanLoop true p.tail.length p.tail ['/'] 1
      else cleanLoop false p.length p [] 0
  if out = [] then ['.'] else out

/-- Go filepath.Join on two elements: join the non-empty elements with '/'
and Clean the result. -/
def goJoin (a b : List Char) : List Char :=
  if a = [] then (if b = [] then [] else goCleanPath b)
  else goCleanPath (a ++ '/' :: b)

/-- The default state root, hard-coded in factory.go:31 and main.go. -/
def defaultRoot : List Char := '/' :: ('r' :: ('u' :: ('n' :: [])))
  ++ ('/' :: "hackontainer".data)

/-- factory.go:60: the per-container directory is
`filepath.Join(l.root, id)`. -/
def containerRootPath (root id : List Char) : List Char :=
  goJoin root id

/-- A component list rendered with '/' separators between elements
(no leading or trailing separator). -/
def interComps : List (List Char) → List Char
  | [] => []
  | [c] => c
  | c :: cs => c ++ '/' :: interComps cs

/-- The concatenation of the components each preceded by a separator. -/
def sepAll (cs : List (List Char)) : List Char :=
  cs.foldr (fun c acc => '/' :: (c ++ acc)) []

/-- cleanLoop with the canonical fuel: exactly the length of the unread
input, which the loop never exceeds. -/
def cleanRun (rooted : Bool) (rem out : List Char) (dd : Nat) : List Char :=
  cleanLoop rooted rem.length rem out dd

/-- The output-buffer growth of cleanLoop's default branch for a rooted
buffer: a separator unless the buffer is exactly "/", then the component. -/
def outApp (out comp : List Char) : List Char :=
  (if out.length = 1 then out else out ++ ['/']) ++ comp

/-- The buffer after cleanLoop has copied a list of components. -/
def appendComps (out : List Char) (comps : List (List Char)) : List Char :=
  comps.foldl outApp out

/-- A path component that cleanLoop copies verbatim: non-empty, without
separators, and not one of the special "." or ".." elements. -/
def simpleComp (c : List Char) : Prop :=
  c ≠ [] ∧ (∀ x ∈ c, x ≠ '/') ∧ c ≠ ['.'] ∧ c ≠ ['.', '.']

instance (c : List Char) : Decidable (simpleComp c) := by
  unfold simpleComp
  infer_instance

/-! ## Container status and persisted state (container.go, first variant) -/

/-- container.go:27-33.  The Status type is a string in Go; the three
named constants plus a catch-all for any other string persisted on disk. -/
inductive Status where
  | created
  | running
  | stopped
  | other (s : String)
deriving DecidableEq, Repr

/-- container.go:35-43.  The persisted state record (state.json).
Annotations are irrelevant to the claims and omitted; `createdAt` stands
for the Created timestamp (0 = Go zero time). -/
structure StateRec where
  id : String
  pid : Nat
  bundle : String
  status : Status
  createdAt : Nat
  ociVersion : String
deriving DecidableEq, Repr

/-- container.go:56-67.  Status() loads the state file and returns the
persisted `status` field verbatim; no process probe is consulted. -/
def observedStatus (st : StateRec) : Status :=
  st.status

/-! ## The config package (embedded in the repo): Load/NormalizeRoot/Validate -/

/-- specs.Process fields the validator reads. -/
structure GoProcess where
  args : List String
  env : List String
  cwd : String
deriving DecidableEq, Repr

/-- specs.Root fields the validator reads. -/
structure GoRoot where
  path : String
deriving DecidableEq, Repr

/-- A specs.LinuxNamespace; its Type is a plain string in the runtime-spec. -/
structure GoNamespaceRef where
  nsType : String
deriving DecidableEq, Repr

/-- A specs.Mount; fields the validator reads. -/
structure GoMount where
  destination : String
  mountType : String
deriving DecidableEq, Repr

/-- The parts of a specs.Spec the core consumes.  config.Load never yields a
nil Spec, so the document itself is always present. -/
structure GoSpec where
  process : Option GoProcess
  root : Option GoRoot
  namespaces : Option (List GoNamespaceRef)
  mounts : List GoMount
deriving DecidableEq, Repr

/-- Go filepath.IsAbs (unix): non-empty and starting with '/'. -/
def goIsAbs (s : String) : Bool :=
  decide (s.data.headD ' ' = '/')

/-- The `for _, env := range process.Env` loop of validateProcess: the first
entry not containing '=' is rejected. -/
def checkEnvList : List String → Except String Unit
  | [] => .ok ()
  | e :: rest =>
    if e.data.contains '=' then checkEnvList rest
    else .error ("invalid environment variable format: " ++ e)

/-- config validateProcess: nil process, empty args, empty cwd, relative cwd,
and env entries without '=' are rejected, in that order.  (No check that the
individual args strings are non-empty.) -/
def validateProcess : Option GoProcess → Except String Unit
  | none => .error "process cannot be nil"
  | some p =>
    if p.args.length = 0 then .error "process args cannot be empty"
    else if p.cwd = "" then .error "process working directory cannot be empty"
    else if goIsAbs p.cwd = false then .error "process working directory must be absolute path"
    else checkEnvList p.env

/-- config validateRoot: nil root, empty path, and a path that does not exist
are rejected.  `fsPaths` lists the paths that exist on the host (the
`os.Stat` environment). -/
def validateRoot (fsPaths : List String) : Option GoRoot → Except String Unit
  | none => .error "root cannot be nil"
  | some r =>
    if r.path = "" then .error "root path cannot be empty"
    else if fsPaths.contains r.path = false then
      .error ("root filesystem does not exist: " ++ r.path)
    else .ok ()

/-- The closed set of recognized namespace types (runtime-spec constants). -/
def allowedNsTypes : List String :=
  ["pid", "network", "mount", "uts", "ipc", "user", "cgroup"]

/-- The `for _, ns := range spec.Linux.Namespaces` loop of validateLinux. -/
def checkNsList : List GoNamespaceRef → Except String Unit
  | [] => .ok ()
  | ns :: rest =>
    if ns.nsType = "" then .error "namespace type cannot be empty"
    else if allowedNsTypes.contains ns.nsType then checkNsList rest
    else .error ("invalid namespace type: " ++ ns.nsType)

/-- config validateLinux: a nil Linux section is accepted outright. -/
def validateLinux : Option (List GoNamespaceRef) → Except String Unit
  | none => .ok ()
  | some nss => checkNsList nss

/-- The `for _, mount := range mounts` loop of validateMounts. -/
def checkMountList : List GoMount → Except String Unit
  | [] => .ok ()
  | m :: rest =>
    if m.destination = "" then .error "mount destination cannot be empty"
    else if m.mountType = "" then .error "mount type cannot be empty"
    else if goIsAbs m.destination = false then
      .error ("mount destination must be absolute path: " ++ m.destination)
    else checkMountList rest

/-- config Validate (test-runc-comparison.sh embedded config package,
lines 152-260): process, then root, then linux, then mounts; the first
failure is returned with the section prefix attached. -/
def validateSpec (fsPaths : List String) (s : GoSpec) : Except String Unit :=
  match validateProcess s.process with
  | .error e => .error ("process validation failed: " ++ e)
  | .ok () =>
  match validateRoot fsPaths s.root with
  | .error e => .error ("root validation failed: " ++ e)
  | .ok () =>
  match validateLinux s.namespaces with
  | .error e => .error ("linux validation failed: " ++ e)
  | .ok () =>
  match checkMountList s.mounts with
  | .error e => .error ("mounts validation failed: " ++ e)
  | .ok () => .ok ()

/-- A loaded config.Config: the parsed spec plus the resolved Rootfs path. -/
structure GoConfig where
  spec : GoSpec
  rootfs : String
deriving DecidableEq, Repr

/-- Go filepath.Dir (unix): everything up to the last '/', Cleaned
("." when there is no '/'). -/
def goDir (p : List Char) : List Char :=
  goCleanPath (p.reverse.dropWhile (fun c => c ≠ '/')).reverse

/-- config NormalizeRoot: errors iff the spec has no root section; a relative
root path is joined onto the bundle directory (the directory of the
initially-guessed Rootfs), and Rootfs is set to the resolved path. -/
def normalizeRoot (cfg : GoConfig) : Except String GoConfig :=
  match cfg.spec.root with
  | none => .error "root specification required"
  | some r =>
    let newPath :=
      if goIsAbs r.path then r.path
      else ⟨goJoin (goDir cfg.rootfs.data) r.path.data⟩
    .ok { spec := { cfg.spec with root := some ⟨newPath⟩ }, rootfs := newPath }

/-! ## Start (container.go:69-186), Delete (container.go:233-240) -/

/-- How a Start invocation can end.  `panicNilDeref` is the runtime panic
raised by evaluating `c.config.Process` when `c.config` is a nil pointer;
it is distinct from an error value returned to the caller. -/
inductive StartOutcome where
  | ok
  | err (msg : String)
  | panicNilDeref
deriving DecidableEq, Repr

/-- container.go Start, with the effects made explicit.
`cfg?` is the container's config pointer (nil for containers produced by
LinuxFactory.Load), `st` the state loaded from the state file, `spawnOk`
and `spawnPid` the result of `process.start()`, `saveOk` the result of the
post-spawn `saveState`.  Returns the outcome and the final state-file
contents.  On a failed save the file is unchanged and the spawned process
is terminated (container.go:111-115); the reaper fork that follows a
successful save does not change the outcome. -/
def containerStart (cfg? : Option GoConfig) (st : StateRec)
    (spawnOk : Bool) (spawnPid : Nat) (saveOk : Bool) : StartOutcome × StateRec :=
  match st.status with
  | .running => (.err "cannot start an already running container", st)
  | .stopped => (.err "cannot start a container that has stopped", st)
  | .other s => (.err ("cannot start a container in the " ++ s ++ " state"), st)
  | .created =>
    match cfg? with
    | none => (.panicNilDeref, st)
    | some cfg =>
      match cfg.spec.process with
      | none => (.err "container process not configured", st)
      | some p =>
        if p.args.length = 0 then (.err "container process not configured", st)
        else if spawnOk = false then (.err "failed to start init process", st)
        else
          let st2 := { st with status := .running, pid := spawnPid }
          if saveOk then (.ok, st2)
          else (.err "failed to save container state after start", st)

/-- The per-container directory: whether it exists and the parsed contents
of its state.json (none = file absent or unreadable). -/
structure CDir where
  present : Bool
  stateFile : Option StateRec
deriving DecidableEq, Repr

/-- container.go:233-240 Delete: remove state.json (a missing file is
ignored) and then RemoveAll the directory.  No status is consulted. -/
def containerDelete (_d : CDir) : Except String CDir :=
  .ok { present := false, stateFile := none }

/-! ## The factory (factory.go) -/

/-- A container handle as built by the factory.  LinuxFactory.Load
(factory.go:96-112) fills only `id` and `root`, leaving `config` nil. -/
structure LoadedContainer where
  id : String
  root : List Char
  config : Option GoConfig
deriving DecidableEq, Repr

/-- factory.go:96-112 Load: reject an empty id, build the handle with a nil
config, and fail if the state file cannot be read. -/
def factoryLoad (root : List Char) (id : String) (stateFile : Option StateRec) :
    Except String LoadedContainer :=
  if id = "" then .error "container ID cannot be empty"
  else
    match stateFile with
    | none => .error "state file not readable"
    | some _ => .ok { id := id, root := containerRootPath root id.data, config := none }

/-- main.go deleteCommand (first variant, lines 148-175): Load the container
(which fails when the state file is absent), then call Delete. -/
def deleteCommand (root : List Char) (id : String) (d : CDir) : Except String CDir :=
  match factoryLoad root id d.stateFile with
  | .error e => .error ("failed to load container: " ++ e)
  | .ok _ => containerDelete d

/-- factory.go:51-94 Create, with effects explicit.  The id-empty check
precedes the MkdirAll of the per-container directory; config load,
NormalizeRoot, validateID and Validate all run after the directory exists
and return without removing it.  The second component of the result is
whether the per-container directory exists after the call (the directory
is assumed absent beforehand). -/
def factoryCreate (id : String) (fsPaths : List String)
    (configLoad : Except String GoConfig) (saveOk : Bool) :
    Except String Unit × Bool :=
  if id = "" then (.error "container ID cannot be empty", false)
  else
    match configLoad with
    | .error e => (.error e, true)
    | .ok cfg =>
      match normalizeRoot cfg with
      | .error e => (.error e, true)
      | .ok cfg2 =>
        match validateID id.data with
        | .error e => (.error e, true)
        | .ok () =>
          match validateSpec fsPaths cfg2.spec with
          | .error e => (.error e, true)
          | .ok () =>
            if saveOk then (.ok (), true)
            else (.error "state write failed", true)

/-! ## saveState as a file-operation trace (container.go:285-293) -/

/-- File-level operations.  `openTrunc` is opening with
O_WRONLY|O_CREATE|O_TRUNC (the first step of os.WriteFile), which empties
the file before any byte is written. -/
inductive FsOp where
  | openTrunc (path : List Char)
  | writeAll (path : List Char) (st : StateRec)
  | closeFile (path : List Char)
  | fsyncFile (path : List Char)
  | renameFile (src dst : List Char)
deriving DecidableEq, Repr

/-- The state file inside a container directory:
`filepath.Join(c.root, stateFilename)`. -/
def statePath (root : List Char) : List Char :=
  goJoin root "state.json".data

/-- os.WriteFile: open with O_TRUNC, write the whole payload, close. -/
def goWriteFile (path : List Char) (st : StateRec) : List FsOp :=
  [.openTrunc path, .writeAll path st, .closeFile path]

/-- container.go:285-293 saveState: a single os.WriteFile of the marshalled
record onto state.json, in place. -/
def saveStateOps (root : List Char) (st : StateRec) : List FsOp :=
  goWriteFile (statePath root) st

/-- What a reader of one path sees: nothing yet, a truncated (partially
written) document, or a complete record. -/
inductive FileView where
  | absent
  | truncated
  | doc (st : StateRec)
deriving DecidableEq, Repr

/-- The view of `path` after a list of operations runs, starting from `v`.
Rename and fsync do not occur in any trace this development runs, so they
leave the view unchanged here. -/
def viewAfter (path : List Char) : List FsOp → FileView → FileView
  | [], v => v
  | op :: rest, v =>
    viewAfter path rest
      (match op with
        | .openTrunc p => if p = path then .truncated else v
        | .writeAll p st => if p = path then .doc st else v
        | _ => v)

def isRenameOp : FsOp → Bool
  | .renameFile _ _ => true
  | _ => false

def isFsyncOp : FsOp → Bool
  | .fsyncFile _ => true
  | _ => false

/-! ## Verb-level operation traces and the start/start race (C2) -/

/-- The observable steps a verb performs against the per-container
directory.  `lockAcquire`/`lockRelease` exist in the vocabulary so that
their absence from every verb's trace is expressible. -/
inductive VerbOp where
  | readState
  | checkStatus
  | spawn
  | writeState
  | removeFile
  | removeDir
  | mkdirDir
  | readConfig
  | lockAcquire
  | lockRelease
deriving DecidableEq, Repr

/-- container.go:69-186 Start: load state, check status, spawn the init
process, write the updated state.  No lock operation appears anywhere. -/
def startVerbOps : List VerbOp :=
  [.readState, .checkStatus, .spawn, .writeState]

/-- container.go:233-240 Delete: remove state.json, remove the directory. -/
def deleteVerbOps : List VerbOp :=
  [.removeFile, .removeDir]

/-- factory.go:51-94 Create: mkdir, read config, write the initial state. -/
def createVerbOps : List VerbOp :=
  [.mkdirDir, .readConfig, .writeState]

/-- Two concurrent Start invocations against the same container.  `file` is
the status stored in state.json; `obsI` is what invocation I read; `resI`
is some true when it returned success, some false when it returned the
already-started error. -/
structure RaceState where
  file : Status
  obs1 : Option Status
  obs2 : Option Status
  res1 : Option Bool
  res2 : Option Bool
deriving DecidableEq, Repr

/-- The two atomic phases of each Start: the state-file read
(container.go:72), and the check-then-write (container.go:80 and :109-111,
with the spawn in between); nothing in the code prevents the other
invocation from running between the two phases. -/
inductive RStep where
  | read1
  | write1
  | read2
  | write2
deriving DecidableEq, Repr

def raceStep (s : RaceState) : RStep → RaceState
  | .read1 => { s with obs1 := some s.file }
  | .read2 => { s with obs2 := some s.file }
  | .write1 =>
    match s.obs1 with
    | some .created => { s with file := .running, res1 := some true }
    | some _ => { s with res1 := some false }
    | none => s
  | .write2 =>
    match s.obs2 with
    | some .created => { s with file := .running, res2 := some true }
    | some _ => { s with res2 := some false }
    | none => s

/-- Run a schedule from the initial configuration: the container is in the
created state and neither invocation has begun. -/
def raceRun (steps : List RStep) : RaceState :=
  steps.foldl raceStep
    { file := .created, obs1 := none, obs2 := none, res1 := none, res2 := none }

/-- The outcome of a pair of Starts: their two results and the final file. -/
def raceOutcome (s : RaceState) : Option Bool × Option Bool × Status :=
  (s.res1, s.res2, s.file)

/-! ## Liveness (C1): what the code actually consults -/

/-- process.go:92-94 startTimeToUint64: ignores the process entirely and
returns the current wall-clock time (`uint64(time.Now().UnixNano())`),
reduced mod 2^64 by the uint64 conversion; the second copy of the function
in the repo carries the comment "This would normally read /proc/[pid]/stat
to get the start time.  For simplicity, we'll return current time". -/
def startTimeToUint64 (nowNanos : Nat) : Nat :=
  nowNanos % 2 ^ 64

/-- The reaper's liveness probe (container.go:136-148): `syscall.Kill(pid, 0)`
succeeds iff some process currently holds the pid; the recorded start time
plays no part.  `table` maps each live pid to the start-time marker of
whatever process holds it now. -/
def reaperProbe (table : Nat → Option Nat) (pid : Nat) : Bool :=
  (table pid).isSome

/-- The second container.go variant's state record (the one that persists a
start-time marker): pid, the recorded marker, and the Started/Finished
timestamps (0 = Go zero time). -/
structure StateV2 where
  initProcessPid : Nat
  initProcessStartTime : Nat
  startedAt : Nat
  finishedAt : Nat
deriving DecidableEq, Repr

/-- That variant's Status() (second container.go document, lines 205-219):
derived purely from the Started/Finished timestamps; the recorded
start-time marker is never compared against anything. -/
def statusV2 (s : StateV2) : Status :=
  if s.finishedAt = 0 then
    (if s.startedAt ≠ 0 then .running else .created)
  else .stopped

/-- Modelled from the spec (§4.5 Liveness Oracle), for comparison with the
code: a state observation of a running record must probe the process
currently holding the recorded pid and report stopped when its start-time
marker differs from the recorded one (or no process holds the pid). -/
def specLivenessStatus (recordedPid recordedStart : Nat) (recorded : Status)
    (table : Nat → Option Nat) : Status :=
  if recorded = .running then
    match table recordedPid with
    | none => .stopped
    | some marker => if marker = recordedStart then .running else .stopped
  else recorded

/-! ## Claim-side acceptance predicates (C8), from the spec's words -/

/-- Modelled from the claim/spec (§4.2): the process part of the acceptance
condition, including that each element of args is non-empty. -/
def processAcceptClaim : Option GoProcess → Bool
  | none => false
  | some p =>
    decide (p.args ≠ []) && p.args.all (fun a => decide (a ≠ "")) &&
      goIsAbs p.cwd && p.env.all (fun e => e.data.contains '=')

/-- The process acceptance condition without the per-element non-emptiness
of args, matching what the code checks. -/
def processAccept : Option GoProcess → Bool
  | none => false
  | some p =>
    decide (p.args ≠ []) && goIsAbs p.cwd && p.env.all (fun e => e.data.contains '=')

/-- Root part: present, non-empty, existing. -/
def rootAccept (fsPaths : List String) : Option GoRoot → Bool
  | none => false
  | some r => decide (r.path ≠ "") && fsPaths.contains r.path

/-- Namespace part: every kind belongs to the recognized set. -/
def nsAccept : Option (List GoNamespaceRef) → Bool
  | none => true
  | some nss => nss.all (fun ns => allowedNsTypes.contains ns.nsType)

/-- Mount part: every mount has a type and an absolute destination. -/
def mountsAccept (ms : List GoMount) : Bool :=
  ms.all (fun m => decide (m.mountType ≠ "") && goIsAbs m.destination)

/-- Modelled from the claim (C8): the full acceptance condition as stated,
including per-element non-emptiness of args. -/
def claimAccepts (fsPaths : List String) (s : GoSpec) : Bool :=
  processAcceptClaim s.process && rootAccept fsPaths s.root &&
    nsAccept s.namespaces && mountsAccept s.mounts

/-- The amended acceptance condition: the claim's, minus the per-element
non-emptiness of args (which the code does not check). -/
def claimAcceptsAmended (fsPaths : List String) (s : GoSpec) : Bool :=
  processAccept s.process && rootAccept fsPaths s.root &&
    nsAccept s.namespaces && mountsAccept s.mounts

/-! ## Concrete fixtures used by counterexamples and witnesses -/

/-- A persisted record in the running state. -/
def stRunning : StateRec :=
  { id := "c1", pid := 5, bundle := "/b", status := .running,
    createdAt := 1, ociVersion := "1.3.0" }

/-- The same record in the created state (as written by create). -/
def stCreated : StateRec :=
  { stRunning with status := .created, pid := 0 }

/-- The same record in the stopped state. -/
def stStopped : StateRec :=
  { stRunning with status := .stopped }

/-- A process table in which pid 5 has been reused: the process now holding
it has start-time marker 2000, not the recorded 1000. -/
def tblReused : Nat → Option Nat :=
  fun p => if p = 5 then some 2000 else none

/-- A container directory holding a running record. -/
def dirRunning : CDir :=
  { present := true, stateFile := some stRunning }

/-- An absent container directory. -/
def dirGone : CDir :=
  { present := false, stateFile := none }

/-- A well-formed spec document (args ["sh"], cwd "/", root "/r"). -/
def specOkFixture : GoSpec :=
  { process := some { args := ["sh"], env := [], cwd := "/" },
    root := some { path := "/r" }, namespaces := none, mounts := [] }

/-- The same document with args = [""]: one element, and it is empty. -/
def specEmptyArgElem : GoSpec :=
  { specOkFixture with process := some { args := [""], env := [], cwd := "/" } }

/-- The same document with args = []. -/
def specNoArgs : GoSpec :=
  { specOkFixture with process := some { args := [], env := [], cwd := "/" } }

/-- The host paths that exist in the fixture world. -/
def fsFixture : List String := ["/r"]

/-- A loaded config around the well-formed fixture spec. -/
def cfgOkFixture : GoConfig := { spec := specOkFixture, rootfs := "/r" }

/-- A loaded config whose spec fails validation (empty args list). -/
def cfgNoArgs : GoConfig := { spec := specNoArgs, rootfs := "/r" }

end Hackontainer

namespace Hackontainer

/-! # Theorems -/

/-- C1 — the claim says an observation of a record with status running, pid P
and recorded start time T must report stopped when the process now holding P
has a different start-time marker.  The code never consults the marker: the
first variant's Status() returns the persisted status verbatim, the second
variant derives status from the Started/Finished timestamps alone, the
reaper's probe is kill(pid,0) which answers "alive" for the reusing process,
and startTimeToUint64 records wall-clock time rather than the /proc marker.
At the failing input (recorded T=1000, occupant's marker 2000) every code
path reports running/alive while the claimed observation reports stopped. -/
theorem liveness_ignores_start_time :
    observedStatus stRunning = .running ∧
    reaperProbe tblReused stRunning.pid = true ∧
    statusV2 { initProcessPid := 5, initProcessStartTime := 1000,
               startedAt := 3, finishedAt := 0 } = .running ∧
    startTimeToUint64 1000 = 1000 ∧
    specLivenessStatus stRunning.pid 1000 (observedStatus stRunning) tblReused = .stopped :=
  ⟨rfl, rfl, rfl, rfl, rfl⟩

/-- C2 counterexample — the claim says every read-modify-write verb holds the
per-container lock across the read-check-write window, making concurrent
pairs serializable.  The embedded Start performs no lock operation, and the
schedule read1,read2,write1,write2 makes both concurrent starts succeed — an
outcome different from both serial orderings (in which the second start
fails with the already-running error). -/
theorem start_race_not_serializable :
    VerbOp.lockAcquire ∉ startVerbOps ∧
    raceOutcome (raceRun [.read1, .read2, .write1, .write2]) =
      (some true, some true, .running) ∧
    raceOutcome (raceRun [.read1, .write1, .read2, .write2]) =
      (some true, some false, .running) ∧
    raceOutcome (raceRun [.read2, .write2, .read1, .write1]) =
      (some false, some true, .running) ∧
    raceOutcome (raceRun [.read1, .read2, .write1, .write2]) ≠
      raceOutcome (raceRun [.read1, .write1, .read2, .write2]) ∧
    raceOutcome (raceRun [.read1, .read2, .write1, .write2]) ≠
      raceOutcome (raceRun [.read2, .write2, .read1, .write1]) := by
  decide

/-- C2 amended — no verb acquires or releases any file lock (the code
contains no locking at all), and consequently two concurrent starts on the
same id admit an interleaving in which both succeed, which coincides with
no serial ordering of the pair. -/
theorem verbs_take_no_lock :
    VerbOp.lockAcquire ∉ startVerbOps ∧ VerbOp.lockRelease ∉ startVerbOps ∧
    VerbOp.lockAcquire ∉ deleteVerbOps ∧ VerbOp.lockRelease ∉ deleteVerbOps ∧
    VerbOp.lockAcquire ∉ createVerbOps ∧ VerbOp.lockRelease ∉ createVerbOps ∧
    (raceRun [.read1, .read2, .write1, .write2]).res1 = some true ∧
    (raceRun [.read1, .read2, .write1, .write2]).res2 = some true := by
  decide

/-- C3 counterexample — the claim says every save writes a temp file, fsyncs
and renames so no reader ever observes a partial document.  The trace of
saveState contains neither a rename nor an fsync, and a reader scheduled
right after the open-with-O_TRUNC step observes a truncated document. -/
theorem save_state_has_no_rename :
    (saveStateOps defaultRoot stRunning).any isRenameOp = false ∧
    (saveStateOps defaultRoot stRunning).any isFsyncOp = false ∧
    viewAfter (statePath defaultRoot) ((saveStateOps defaultRoot stRunning).take 1)
      (.doc stCreated) = .truncated := by
  decide

/-- C3 amended — saveState writes state.json in place through a single
os.WriteFile (open with O_TRUNC, write, close); no temporary file, fsync or
rename is involved, and a reader between the truncating open and the write
observes a partial (truncated) document whatever the file held before. -/
theorem save_state_writes_in_place (root : List Char) (st : StateRec) (old : FileView) :
    saveStateOps root st =
      [.openTrunc (statePath root), .writeAll (statePath root) st,
       .closeFile (statePath root)] ∧
    (saveStateOps root st).any isRenameOp = false ∧
    (saveStateOps root st).any isFsyncOp = false ∧
    viewAfter (statePath root) ((saveStateOps root st).take 1) old = .truncated := by
  refine ⟨rfl, rfl, rfl, ?_⟩
  simp [saveStateOps, goWriteFile, viewAfter]

/-- C3 amended, instantiated at the default root and a concrete record. -/
theorem save_state_writes_in_place_witness :
    saveStateOps defaultRoot stRunning =
      [.openTrunc (statePath defaultRoot), .writeAll (statePath defaultRoot) stRunning,
       .closeFile (statePath defaultRoot)] ∧
    (saveStateOps defaultRoot stRunning).any isRenameOp = false ∧
    (saveStateOps defaultRoot stRunning).any isFsyncOp = false ∧
    viewAfter (statePath defaultRoot) ((saveStateOps defaultRoot stRunning).take 1)
      .absent = .truncated :=
  save_state_writes_in_place defaultRoot stRunning .absent

/-- C4 counterexample — the claim says delete on a running container fails
with Busy and leaves the directory, and that delete is idempotent on
stopped/absent containers.  On a running record the delete verb succeeds and
removes the directory (no status is consulted), and a second delete of the
now-absent container fails at Load instead of succeeding. -/
theorem delete_running_succeeds :
    stRunning.status = .running ∧
    deleteCommand defaultRoot "c1" dirRunning = .ok { present := false, stateFile := none } ∧
    deleteCommand defaultRoot "c1" dirGone =
      .error "failed to load container: state file not readable" :=
  ⟨rfl, rfl, rfl⟩

/-- C4 amended — delete never consults the status: whenever the state file is
readable it removes the directory and succeeds, running included; and delete
of an absent container fails when Load cannot read the state file, so a
repeated delete fails rather than succeeding. -/
theorem delete_ignores_status (root : List Char) (id : String) (d : CDir) (st : StateRec)
    (hid : id ≠ "") (hf : d.stateFile = some st) :
    deleteCommand root id d = .ok { present := false, stateFile := none } ∧
    deleteCommand root id { present := false, stateFile := none } =
      .error "failed to load container: state file not readable" := by
  constructor
  · simp [deleteCommand, factoryLoad, hid, hf, containerDelete]
  · simp [deleteCommand, factoryLoad, hid]

/-- C4 amended, instantiated — delete of a concrete running container
succeeds and removes the directory; the repeated delete fails at load. -/
theorem delete_ignores_status_witness :
    deleteCommand defaultRoot "c1" dirRunning = .ok { present := false, stateFile := none } ∧
    deleteCommand defaultRoot "c1" { present := false, stateFile := none } =
      .error "failed to load container: state file not readable" :=
  delete_ignores_status defaultRoot "c1" dirRunning stRunning (by decide) rfl

/-- C5 — the claim (spec P4, and the OCI MUST quoted in main.go's own doc
comment) says an erroring create leaves no new directory under the root.
The code runs MkdirAll before config load, id validation, config validation
and the state write, and none of those error paths removes the directory:
at each failing input below create returns an error with the directory
still present. -/
theorem create_failure_leaves_directory :
    factoryCreate "c1" fsFixture (.error "failed to read config file") true =
      (.error "failed to read config file", true) ∧
    factoryCreate "a/b" fsFixture (.ok cfgOkFixture) true =
      (.error "invalid container ID", true) ∧
    factoryCreate "c1" fsFixture (.ok cfgNoArgs) true =
      (.error "process validation failed: process args cannot be empty", true) ∧
    factoryCreate "c1" fsFixture (.ok cfgOkFixture) false =
      (.error "state write failed", true) :=
  ⟨rfl, rfl, rfl, rfl⟩

/-- C6 — start succeeds only from status created: on a running record it
fails with the already-running error, on a stopped record with the
has-stopped error, on any other persisted status with the generic
invalid-state error, in every case leaving the state file unchanged; and
whenever start ends in success the initial status was created. -/
theorem start_only_from_created (cfg? : Option GoConfig) (st : StateRec)
    (spawnOk : Bool) (spawnPid : Nat) (saveOk : Bool) :
    (st.status = .running →
      containerStart cfg? st spawnOk spawnPid saveOk =
        (.err "cannot start an already running container", st)) ∧
    (st.status = .stopped →
      containerStart cfg? st spawnOk spawnPid saveOk =
        (.err "cannot start a container that has stopped", st)) ∧
    (∀ s, st.status = .other s →
      containerStart cfg? st spawnOk spawnPid saveOk =
        (.err ("cannot start a container in the " ++ s ++ " state"), st)) ∧
    ((containerStart cfg? st spawnOk spawnPid saveOk).1 = .ok → st.status = .created) := by
  cases h : st.status <;> simp [containerStart, h]

/-- C6 instantiated — a second start after a successful one (status running)
fails with the already-running error and leaves the state unchanged. -/
theorem start_only_from_created_witness :
    containerStart (some cfgOkFixture) stRunning true 7 true =
      (.err "cannot start an already running container", stRunning) :=
  (start_only_from_created (some cfgOkFixture) stRunning true 7 true).1 rfl

/-- C7 — LinuxFactory.Load fills only the id and root of the container
handle, leaving the config nil; starting such a handle in the created state
passes the status check and then panics with a nil-pointer dereference at
the `c.config.Process` check, instead of launching the init process or
returning an error value. -/
theorem load_leaves_config_nil (root : List Char) (id : String) (st : StateRec)
    (spawnOk : Bool) (spawnPid : Nat) (saveOk : Bool) (hid : id ≠ "") :
    ∃ c, factoryLoad root id (some st) = .ok c ∧ c.config = none ∧
      (st.status = .created →
        containerStart c.config st spawnOk spawnPid saveOk = (.panicNilDeref, st)) := by
  refine ⟨{ id := id, root := containerRootPath root id.data, config := none }, ?_, rfl, ?_⟩
  · simp [factoryLoad, hid]
  · intro h
    simp [containerStart, h]

/-- C7 instantiated — loading a concrete created container yields a handle
with a nil config, and starting it panics with the nil dereference. -/
theorem load_leaves_config_nil_witness :
    ∃ c, factoryLoad defaultRoot "c1" (some stCreated) = .ok c ∧ c.config = none ∧
      (stCreated.status = .created →
        containerStart c.config stCreated true 7 true = (.panicNilDeref, stCreated)) :=
  load_leaves_config_nil defaultRoot "c1" stCreated true 7 true (by decide)

/-- An absolute path is in particular non-empty. -/
theorem goIsAbs_ne_empty {s : String} (h : goIsAbs s = true) : s ≠ "" := by
  intro he
  subst he
  exact absurd h (by decide)

/-- Turn an acceptance iff and a rejection into falsity of the Bool side. -/
theorem accept_false_of_not_ok (f : Except String Unit) (b : Bool)
    (h : f = .ok () ↔ b = true) (hb : f ≠ .ok ()) : b = false := by
  cases b
  · rfl
  · exact absurd (h.mpr rfl) hb

/-- The env loop accepts exactly the lists whose entries all contain '='. -/
theorem checkEnvList_ok_iff (l : List String) :
    checkEnvList l = .ok () ↔ l.all (fun e => e.data.contains '=') = true := by
  induction l with
  | nil => simp [checkEnvList]
  | cons e rest ih =>
    by_cases h : '=' ∈ e.data <;> simp [checkEnvList, h, ih]

/-- validateProcess accepts exactly: process present, args non-empty, cwd
absolute, every env entry containing '='. -/
theorem validateProcess_ok_iff (p? : Option GoProcess) :
    validateProcess p? = .ok () ↔ processAccept p? = true := by
  cases p? with
  | none => simp [validateProcess, processAccept]
  | some p =>
    by_cases h1 : p.args.length = 0
    · have h1e : p.args = [] := List.length_eq_zero.mp h1
      simp [validateProcess, processAccept, h1, h1e]
    · have h1n : p.args ≠ [] := by
        intro he
        exact h1 (by simp [he])
      by_cases h2 : p.cwd = ""
      · have h3 : goIsAbs p.cwd = false := by rw [h2]; decide
        simp [validateProcess, processAccept, h1, h2, h3]
        intro _ habs
        exact absurd habs (by decide)
      · by_cases h3 : goIsAbs p.cwd
        · simp [validateProcess, processAccept, h1, h2, h3, h1n, checkEnvList_ok_iff]
        · simp [validateProcess, processAccept, h1, h2, h3]

/-- validateRoot accepts exactly: root present, non-empty, existing. -/
theorem validateRoot_ok_iff (fsPaths : List String) (r? : Option GoRoot) :
    validateRoot fsPaths r? = .ok () ↔ rootAccept fsPaths r? = true := by
  cases r? with
  | none => simp [validateRoot, rootAccept]
  | some r =>
    by_cases h1 : r.path = ""
    · simp [validateRoot, rootAccept, h1]
    · by_cases h2 : fsPaths.contains r.path <;>
        simp [validateRoot, rootAccept, h1, h2]

/-- The namespace loop accepts exactly the lists whose kinds are all in the
recognized set. -/
theorem checkNsList_ok_iff (l : List GoNamespaceRef) :
    checkNsList l = .ok () ↔ l.all (fun ns => allowedNsTypes.contains ns.nsType) = true := by
  induction l with
  | nil => simp [checkNsList]
  | cons ns rest ih =>
    by_cases h0 : ns.nsType = ""
    · simp [checkNsList, h0]
      intro hmem
      exact absurd hmem (by decide)
    · by_cases h1 : ns.nsType ∈ allowedNsTypes <;>
        simp [checkNsList, h0, h1, ih]

/-- validateLinux accepts exactly: no linux section, or all kinds valid. -/
theorem validateLinux_ok_iff (l? : Option (List GoNamespaceRef)) :
    validateLinux l? = .ok () ↔ nsAccept l? = true := by
  cases l? with
  | none => simp [validateLinux, nsAccept]
  | some nss => simp [validateLinux, nsAccept, checkNsList_ok_iff]

/-- The mount loop accepts exactly the lists whose mounts all have a type
and an absolute destination. -/
theorem checkMountList_ok_iff (ms : List GoMount) :
    checkMountList ms = .ok () ↔ mountsAccept ms = true := by
  induction ms with
  | nil => simp [checkMountList, mountsAccept]
  | cons m rest ih =>
    by_cases h1 : m.destination = ""
    · simp [checkMountList, mountsAccept, h1]
      intro _ habs
      exact absurd habs (by decide)
    · by_cases h2 : m.mountType = ""
      · simp [checkMountList, mountsAccept, h1, h2]
      · by_cases h3 : goIsAbs m.destination <;>
          simp [checkMountList, mountsAccept, h1, h2, h3, ih]

/-- C8 counterexample — the claim's acceptance condition requires every args
element to be non-empty, but the validator accepts the document whose args
list is [""] (it checks only that the list itself is non-empty). -/
theorem validate_accepts_empty_arg_element :
    validateSpec fsFixture specEmptyArgElem = .ok () ∧
    claimAccepts fsFixture specEmptyArgElem = false :=
  ⟨rfl, rfl⟩

/-- C8 amended — validation accepts a document iff: process present with a
non-empty args list, cwd absolute, every env entry containing '=', root
present with a non-empty existing path, every namespace kind in the
recognized set, and every mount with a type and an absolute destination
(everything the claim states except per-element non-emptiness of args);
otherwise the first violated rule's error is returned. -/
theorem validate_accepts_iff (fsPaths : List String) (s : GoSpec) :
    validateSpec fsPaths s = .ok () ↔ claimAcceptsAmended fsPaths s = true := by
  unfold validateSpec claimAcceptsAmended
  cases hp : validateProcess s.process with
  | error e =>
    have hpf : processAccept s.process = false :=
      accept_false_of_not_ok _ _ (validateProcess_ok_iff s.process) (by simp [hp])
    simp [hpf]
  | ok u =>
    cases u
    have hp2 : processAccept s.process = true := (validateProcess_ok_iff s.process).mp hp
    cases hr : validateRoot fsPaths s.root with
    | error e =>
      have hrf : rootAccept fsPaths s.root = false :=
        accept_false_of_not_ok _ _ (validateRoot_ok_iff fsPaths s.root) (by simp [hr])
      simp [hp2, hrf]
    | ok u =>
      cases u
      have hr2 : rootAccept fsPaths s.root = true := (validateRoot_ok_iff fsPaths s.root).mp hr
      cases hl : validateLinux s.namespaces with
      | error e =>
        have hlf : nsAccept s.namespaces = false :=
          accept_false_of_not_ok _ _ (validateLinux_ok_iff s.namespaces) (by simp [hl])
        simp [hp2, hr2, hlf]
      | ok u =>
        cases u
        have hl2 : nsAccept s.namespaces = true := (validateLinux_ok_iff s.namespaces).mp hl
        cases hm : checkMountList s.mounts with
        | error e =>
          have hmf : mountsAccept s.mounts = false :=
            accept_false_of_not_ok _ _ (checkMountList_ok_iff s.mounts) (by simp [hm])
          simp [hp2, hr2, hl2, hmf]
        | ok u =>
          cases u
          have hm2 : mountsAccept s.mounts = true := (checkMountList_ok_iff s.mounts).mp hm
          simp [hp2, hr2, hl2, hm2]

/-- C8 amended, instantiated at the well-formed fixture document. -/
theorem validate_accepts_iff_witness :
    validateSpec fsFixture specOkFixture = .ok () ↔
      claimAcceptsAmended fsFixture specOkFixture = true :=
  validate_accepts_iff fsFixture specOkFixture

/-- Stripping trailing separators does nothing to a string without '/'. -/
theorem dropTrailingSep_of_no_sep {s : List Char} (h : '/' ∉ s) :
    dropTrailingSep s = s := by
  unfold dropTrailingSep
  have hd : s.reverse.dropWhile (fun c => c = '/') = s.reverse := by
    cases hr : s.reverse with
    | nil => simp
    | cons c t =>
      have hc : c ∈ s := by
        rw [← List.mem_reverse, hr]
        exact List.mem_cons_self c t
      have hcs : ¬(c = '/') := fun he => h (he ▸ hc)
      simp [List.dropWhile_cons, hcs]
  rw [hd, List.reverse_reverse]

/-- Taking up to the last separator does nothing to a string without '/'. -/
theorem afterLastSep_of_no_sep {s : List Char} (h : '/' ∉ s) :
    afterLastSep s = s := by
  unfold afterLastSep
  rw [List.takeWhile_eq_self_iff.mpr ?_, List.reverse_reverse]
  intro x hx
  have hxs : x ∈ s := List.mem_reverse.mp hx
  simp only [ne_eq, decide_eq_true_eq]
  intro he
  exact h (he ▸ hxs)

/-- Go filepath.Base fixes a string exactly when it is "/" or non-empty
without any separator. -/
theorem goBase_eq_self_iff (s : List Char) :
    goBase s = s ↔ (s = ['/'] ∨ (s ≠ [] ∧ '/' ∉ s)) := by
  constructor
  · intro h
    by_cases hnil : s = []
    · subst hnil
      simp [goBase] at h
    · unfold goBase at h
      rw [if_neg hnil] at h
      by_cases hu : afterLastSep (dropTrailingSep s) = []
      · rw [if_pos hu] at h
        exact Or.inl h.symm
      · rw [if_neg hu] at h
        refine Or.inr ⟨hnil, fun hmem => ?_⟩
        have hns : '/' ∈ afterLastSep (dropTrailingSep s) := by
          rw [h]
          exact hmem
        have hmt : ('/' : Char) ∈
            (dropTrailingSep s).reverse.takeWhile (fun c => decide (c ≠ '/')) := by
          unfold afterLastSep at hns
          rwa [List.mem_reverse] at hns
        have hb := List.mem_takeWhile_imp hmt
        simp at hb
  · intro h
    rcases h with h | ⟨hne, hmem⟩
    · subst h
      decide
    · have ht : dropTrailingSep s = s := dropTrailingSep_of_no_sep hmem
      have hu : afterLastSep s = s := afterLastSep_of_no_sep hmem
      unfold goBase
      rw [if_neg hne]
      simp only [ht, hu]
      rw [if_neg hne]

/-- C9 counterexample — the claim says every id containing '/' is rejected,
but the id consisting of the single separator is accepted: Go filepath.Base
maps "/" to itself, so validateID returns ok on it. -/
theorem slash_id_accepted :
    validateID ['/'] = .ok () ∧ '/' ∈ ['/'] :=
  ⟨rfl, by decide⟩

/-- C9 amended — validateID accepts exactly the strings of length at most
1024 that either are the single separator "/" or are non-empty and contain
no '/'; in particular a separator-free id of length 1024 is accepted,
length 1025 is rejected, and every id containing '/' other than "/" itself
is rejected. -/
theorem validateID_ok_iff (id : List Char) :
    validateID id = .ok () ↔
      (id.length ≤ 1024 ∧ (id = ['/'] ∨ (id ≠ [] ∧ '/' ∉ id))) := by
  unfold validateID
  by_cases h1 : id.length > 1024
  · rw [if_pos h1]
    constructor
    · intro h
      exact absurd h (by simp)
    · rintro ⟨hlen, -⟩
      exact absurd hlen (by omega)
  · rw [if_neg h1]
    by_cases h2 : goBase id = id
    · rw [if_neg (not_not_intro h2)]
      have hc := (goBase_eq_self_iff id).mp h2
      simp [hc]
      omega
    · rw [if_pos h2]
      constructor
      · intro h
        exact absurd h (by simp)
      · rintro ⟨-, hc⟩
        exact absurd ((goBase_eq_self_iff id).mpr hc) h2

set_option maxRecDepth 8000 in
/-- C9 amended, instantiated at the boundary inputs the claim names: a
separator-free id of length 1024 is accepted and one of length 1025 is
rejected. -/
theorem validateID_ok_iff_witness :
    validateID (List.replicate 1024 'a') = .ok () ∧
    validateID (List.replicate 1025 'a') ≠ .ok () := by
  constructor
  · refine (validateID_ok_iff _).mpr ⟨by simp, Or.inr ⟨by simp, fun h => ?_⟩⟩
    exact absurd (List.eq_of_mem_replicate h) (by decide)
  · intro h
    have hlen := ((validateID_ok_iff _).mp h).1
    simp at hlen

/-- dropWhile never lengthens a list. -/
theorem length_dropWhile_le (p : Char → Bool) (l : List Char) :
    (l.dropWhile p).length ≤ l.length := by
  induction l with
  | nil => simp
  | cons a t ih =>
    rw [List.dropWhile_cons]
    by_cases h : p a
    · simp only [if_pos h]
      simp
      omega
    · simp [h]

/-- cleanLoop returns the buffer on empty input whatever the fuel. -/
theorem cleanLoop_nil (rooted : Bool) (f : Nat) (out : List Char) (dd : Nat) :
    cleanLoop rooted f [] out dd = out := by
  cases f <;> rfl

/-- The fuel argument of cleanLoop is irrelevant as long as it covers the
length of the unread input (the loop consumes at least one character per
unit of fuel). -/
theorem cleanLoop_fuel (rooted : Bool) :
    ∀ n rem out dd f g, rem.length ≤ f → rem.length ≤ g → rem.length ≤ n →
      cleanLoop rooted f rem out dd = cleanLoop rooted g rem out dd := by
  intro n
  induction n with
  | zero =>
    intro rem out dd f g _ _ hn
    have hrem : rem = [] := List.length_eq_zero.mp (Nat.le_zero.mp hn)
    subst hrem
    rw [cleanLoop_nil, cleanLoop_nil]
  | succ n ih =>
    intro rem out dd f g hf hg hn
    cases rem with
    | nil => rw [cleanLoop_nil, cleanLoop_nil]
    | cons c rest =>
      cases f with
      | zero => exact absurd hf (by simp)
      | succ f' =>
        cases g with
        | zero => exact absurd hg (by simp)
        | succ g' =>
          have hrest : rest.length ≤ n := by simp at hn; omega
          have hrestf : rest.length ≤ f' := by simp at hf; omega
          have hrestg : rest.length ≤ g' := by simp at hg; omega
          have htail : rest.tail.length ≤ rest.length := by cases rest <;> simp
          simp only [cleanLoop]
          by_cases h1 : c = '/'
          · simp only [if_pos h1]
            exact ih rest out dd f' g' hrestf hrestg hrest
          · simp only [if_neg h1]
            by_cases h2 : c = '.' ∧ (rest = [] ∨ rest.headD ' ' = '/')
            · simp only [if_pos h2]
              exact ih rest out dd f' g' hrestf hrestg hrest
            · simp only [if_neg h2]
              by_cases h3 : c = '.' ∧ rest.headD ' ' = '.' ∧
                  (rest.tail = [] ∨ rest.tail.headD ' ' = '/')
              · simp only [if_pos h3]
                by_cases h4 : dd < out.length
                · simp only [if_pos h4]
                  exact ih rest.tail _ dd f' g' (le_trans htail hrestf)
                    (le_trans htail hrestg) (le_trans htail hrest)
                · simp only [if_neg h4]
                  by_cases h5 : rooted = false
                  · simp only [if_pos h5]
                    exact ih rest.tail _ _ f' g' (le_trans htail hrestf)
                      (le_trans htail hrestg) (le_trans htail hrest)
                  · simp only [if_neg h5]
                    exact ih rest.tail out dd f' g' (le_trans htail hrestf)
                      (le_trans htail hrestg) (le_trans htail hrest)
              · simp only [if_neg h3]
                have hdrop : (c :: rest).dropWhile (fun x => x ≠ '/') =
                    rest.dropWhile (fun x => x ≠ '/') := by
                  simp [List.dropWhile_cons, h1]
                have hlen : ((c :: rest).dropWhile (fun x => x ≠ '/')).length ≤ rest.length := by
                  rw [hdrop]
                  exact length_dropWhile_le _ rest
                exact ih _ _ dd f' g' (le_trans hlen hrestf)
                  (le_trans hlen hrestg) (le_trans hlen hrest)

/-- cleanLoop skips a separator at the head of the input. -/
theorem cleanRun_sep (rooted : Bool) (rest out : List Char) (dd : Nat) :
    cleanRun rooted ('/' :: rest) out dd = cleanRun rooted rest out dd := by
  simp [cleanRun, cleanLoop]

/-- takeWhile over a separator-free block followed by a separator. -/
theorem takeWhile_comp_sep (comp rest : List Char) (h : ∀ x ∈ comp, x ≠ '/') :
    (comp ++ '/' :: rest).takeWhile (fun x => x ≠ '/') = comp := by
  induction comp with
  | nil => simp [List.takeWhile_cons]
  | cons a t ih =>
    have ha : a ≠ '/' := h a (List.mem_cons_self a t)
    have ih2 := ih (fun x hx => h x (List.mem_cons_of_mem a hx))
    simp only [List.cons_append, List.takeWhile_cons]
    simp [ha]
    simpa using ih2

/-- dropWhile over a separator-free block followed by a separator. -/
theorem dropWhile_comp_sep (comp rest : List Char) (h : ∀ x ∈ comp, x ≠ '/') :
    (comp ++ '/' :: rest).dropWhile (fun x => x ≠ '/') = '/' :: rest := by
  induction comp with
  | nil => simp [List.dropWhile_cons]
  | cons a t ih =>
    have ha : a ≠ '/' := h a (List.mem_cons_self a t)
    have ih2 := ih (fun x hx => h x (List.mem_cons_of_mem a hx))
    simp only [List.cons_append, List.dropWhile_cons]
    simp [ha]
    simpa using ih2

/-- One full component step of the rooted cleanLoop: a simple component and
its following separator are consumed, and the component is copied onto the
buffer behind a separator (unless the buffer is exactly "/"). -/
theorem cleanRun_comp (comp rest out : List Char) (dd : Nat)
    (hc : comp ≠ []) (hns : ∀ x ∈ comp, x ≠ '/')
    (hdot : comp ≠ ['.']) (hdd2 : comp ≠ ['.', '.']) :
    cleanRun true (comp ++ '/' :: rest) out dd = cleanRun true rest (outApp out comp) dd := by
  cases comp with
  | nil => exact absurd rfl hc
  | cons a t =>
    have ha : a ≠ '/' := hns a (List.mem_cons_self a t)
    have h2 : ¬(a = '.' ∧ ((t ++ '/' :: rest) = [] ∨ (t ++ '/' :: rest).headD ' ' = '/')) := by
      rintro ⟨ha2, hb | hb⟩
      · exact absurd hb (by simp)
      · cases t with
        | nil =>
          subst ha2
          exact hdot rfl
        | cons b t2 =>
          have : b ≠ '/' := hns b (by simp)
          simp at hb
          exact this hb
    have h3 : ¬(a = '.' ∧ (t ++ '/' :: rest).headD ' ' = '.' ∧
        ((t ++ '/' :: rest).tail = [] ∨ (t ++ '/' :: rest).tail.headD ' ' = '/')) := by
      rintro ⟨ha2, hb, hcnd⟩
      cases t with
      | nil => simp at hb
      | cons b t2 =>
        simp at hb
        cases t2 with
        | nil =>
          subst ha2
          subst hb
          exact hdd2 rfl
        | cons c2 t3 =>
          have hc2 : c2 ≠ '/' := hns c2 (by simp)
          rcases hcnd with hcnd | hcnd
          · exact absurd hcnd (by simp)
          · simp at hcnd
            exact hc2 hcnd
    have htw : ((a :: t) ++ '/' :: rest).takeWhile (fun x => x ≠ '/') = a :: t :=
      takeWhile_comp_sep (a :: t) rest hns
    have hdw : ((a :: t) ++ '/' :: rest).dropWhile (fun x => x ≠ '/') = '/' :: rest :=
      dropWhile_comp_sep (a :: t) rest hns
    show cleanLoop true ((a :: t) ++ '/' :: rest).length ((a :: t) ++ '/' :: rest) out dd = _
    rw [show ((a :: t) ++ '/' :: rest).length = (t ++ '/' :: rest).length + 1 by simp]
    rw [show ((a :: t) ++ '/' :: rest) = a :: (t ++ '/' :: rest) by simp]
    simp only [cleanLoop, if_neg ha, if_neg h2, if_neg h3]
    rw [show (a :: (t ++ '/' :: rest)) = ((a :: t) ++ '/' :: rest) by simp]
    rw [htw, hdw]
    have hbuf : (if True ∧ out.length ≠ 1 ∨ true = false ∧ out.length ≠ 0
        then out ++ ['/'] else out) ++ a :: t = outApp out (a :: t) := by
      by_cases hl : out.length = 1 <;> simp [outApp, hl]
    rw [hbuf]
    rw [cleanLoop_fuel true ((t ++ '/' :: rest).length) ('/' :: rest) (outApp out (a :: t)) dd
      ((t ++ '/' :: rest).length) (('/' :: rest).length) (by simp) (by simp) (by simp)]
    rw [show cleanLoop true ('/' :: rest).length ('/' :: rest) (outApp out (a :: t)) dd =
      cleanRun true ('/' :: rest) (outApp out (a :: t)) dd from rfl]
    exact cleanRun_sep true rest (outApp out (a :: t)) dd

/-- interComps of a non-empty list is head then sepAll of the tail. -/
theorem interComps_cons (c : List Char) (cs : List (List Char)) :
    interComps (c :: cs) = c ++ sepAll cs := by
  induction cs generalizing c with
  | nil => simp [interComps, sepAll]
  | cons d ds ih =>
    show interComps (c :: d :: ds) = c ++ sepAll (d :: ds)
    rw [show interComps (c :: d :: ds) = c ++ '/' :: interComps (d :: ds) from rfl]
    rw [ih d]
    rfl

/-- sepAll distributes over appending a final component. -/
theorem sepAll_append_last (cs : List (List Char)) (x : List Char) :
    sepAll (cs ++ [x]) = sepAll cs ++ '/' :: x := by
  induction cs with
  | nil => simp [sepAll]
  | cons d ds ih =>
    show ('/' : Char) :: (d ++ sepAll (ds ++ [x])) = ('/' :: (d ++ sepAll ds)) ++ '/' :: x
    rw [ih]
    simp

/-- interComps of a list with a final element appended, when the front is
non-empty. -/
theorem interComps_append_last (comps : List (List Char)) (x : List Char)
    (h : comps ≠ []) :
    interComps (comps ++ [x]) = interComps comps ++ '/' :: x := by
  cases comps with
  | nil => exact absurd rfl h
  | cons c cs =>
    rw [show (c :: cs) ++ [x] = c :: (cs ++ [x]) from rfl]
    rw [interComps_cons, interComps_cons, sepAll_append_last]
    simp

/-- Copying components onto a buffer longer than "/" appends them behind
separators. -/
theorem appendComps_big (comps : List (List Char)) :
    ∀ out : List Char, 2 ≤ out.length →
      appendComps out comps = out ++ sepAll comps := by
  induction comps with
  | nil =>
    intro out _
    simp [appendComps, sepAll]
  | cons c cs ih =>
    intro out hlen
    show appendComps (outApp out c) cs = out ++ sepAll (c :: cs)
    have h1 : outApp out c = out ++ '/' :: c := by
      have : out.length ≠ 1 := by omega
      simp [outApp, this]
    rw [h1]
    rw [ih (out ++ '/' :: c) (by simp; omega)]
    simp [sepAll]

/-- Copying components onto the buffer "/" produces the rooted rendering. -/
theorem appendComps_root (comps : List (List Char))
    (hall : ∀ c ∈ comps, c ≠ []) :
    appendComps ['/'] comps = '/' :: interComps comps := by
  cases comps with
  | nil => rfl
  | cons c cs =>
    show appendComps (outApp ['/'] c) cs = '/' :: interComps (c :: cs)
    have h1 : outApp ['/'] c = '/' :: c := by simp [outApp]
    have hc : c ≠ [] := hall c (by simp)
    have hlen : 2 ≤ ('/' :: c).length := by
      cases c with
      | nil => exact absurd rfl hc
      | cons a t => simp
    rw [h1, appendComps_big cs ('/' :: c) hlen, interComps_cons]
    simp

/-- The rooted cleanLoop copies a whole list of simple components onto the
buffer. -/
theorem cleanRun_comps (comps : List (List Char)) :
    ∀ suffix out : List Char, (∀ c ∈ comps, simpleComp c) → out ≠ [] →
      cleanRun true (interComps comps ++ '/' :: suffix) out 1 =
        cleanRun true suffix (appendComps out comps) 1 := by
  induction comps with
  | nil =>
    intro suffix out _ _
    show cleanRun true (interComps [] ++ '/' :: suffix) out 1 = _
    rw [show interComps [] = ([] : List Char) from rfl, List.nil_append]
    exact cleanRun_sep true suffix out 1
  | cons c cs ih =>
    intro suffix out hall hout
    obtain ⟨hc0, hcs, hcdot, hcdd⟩ := hall c (by simp)
    rw [interComps_cons]
    cases cs with
    | nil =>
      rw [show sepAll ([] : List (List Char)) = [] from rfl, List.append_nil]
      rw [cleanRun_comp c suffix out 1 hc0 hcs hcdot hcdd]
      rfl
    | cons d ds =>
      have hs : sepAll (d :: ds) = '/' :: interComps (d :: ds) := by
        rw [interComps_cons]
        rfl
      rw [hs]
      rw [show (c ++ '/' :: interComps (d :: ds)) ++ '/' :: suffix =
        c ++ '/' :: (interComps (d :: ds) ++ '/' :: suffix) by simp]
      rw [cleanRun_comp c _ out 1 hc0 hcs hcdot hcdd]
      have houtc : outApp out c ≠ [] := by
        simp [outApp, hc0]
      rw [ih suffix (outApp out c) (fun x hx => hall x (by simp [hx])) houtc]
      rfl

/-- A trailing "." element leaves the buffer unchanged. -/
theorem cleanRun_dot_end (out : List Char) (dd : Nat) :
    cleanRun true ['.'] out dd = out := by
  simp [cleanRun, cleanLoop]

/-- A trailing ".." element backtracks a rooted buffer longer than "/". -/
theorem cleanRun_dotdot_end (out : List Char) (h : 1 < out.length) :
    cleanRun true ['.', '.'] out 1 = backtrack out 1 := by
  simp [cleanRun, cleanLoop, h]

/-- The backtracking index search stops exactly at `m` when the character
there stops it and everything above is not a separator. -/
theorem btFind_down (out : List Char) (m : Nat) (hm : 1 ≤ m)
    (hstop : ¬(1 < m ∧ out.getD m ' ' ≠ '/')) :
    ∀ k, (∀ i, m < i → i ≤ m + k → out.getD i ' ' ≠ '/') →
      btFind out 1 (m + k) = m := by
  intro k
  induction k with
  | zero =>
    intro _
    cases m with
    | zero => exact absurd hm (by omega)
    | succ m2 =>
      show btFind out 1 (m2 + 1) = m2 + 1
      simp only [btFind]
      rw [if_neg hstop]
  | succ k ih =>
    intro hall
    rw [show m + (k + 1) = (m + k) + 1 by omega]
    simp only [btFind]
    rw [if_pos ⟨by omega, hall (m + k + 1) (by omega) (by omega)⟩]
    exact ih (fun i hi1 hi2 => hall i hi1 (by omega))

/-- Backtracking a buffer of the form pre ++ "/" ++ comp strips the final
separator and component. -/
theorem backtrack_strip (pre c : List Char) (hp : 1 ≤ pre.length)
    (hc : ∀ x ∈ c, x ≠ '/') :
    backtrack (pre ++ '/' :: c) 1 = pre := by
  unfold backtrack
  have hidx : (pre ++ '/' :: c).length - 1 = pre.length + c.length := by
    simp
  rw [hidx]
  have hstop : ¬(1 < pre.length ∧ (pre ++ '/' :: c).getD pre.length ' ' ≠ '/') := by
    rintro ⟨_, hne⟩
    apply hne
    rw [List.getD_append_right pre ('/' :: c) ' ' pre.length (le_refl _)]
    simp
  rw [btFind_down (pre ++ '/' :: c) pre.length hp hstop c.length ?_]
  · exact List.take_left pre ('/' :: c)
  · intro i hi1 hi2
    rw [List.getD_append_right pre ('/' :: c) ' ' i (by omega)]
    rw [show i - pre.length = (i - pre.length - 1) + 1 by omega]
    rw [List.getD_cons_succ]
    have hj : i - pre.length - 1 < c.length := by omega
    rw [List.getD_eq_getElem c ' ' hj]
    exact hc _ (List.getElem_mem hj)

/-- Backtracking the buffer "/" ++ comp collapses it to the bare root. -/
theorem backtrack_single (c : List Char) (hc0 : c ≠ [])
    (hc : ∀ x ∈ c, x ≠ '/') :
    backtrack ('/' :: c) 1 = ['/'] := by
  unfold backtrack
  have hidx : ('/' :: c).length - 1 = c.length := by simp
  rw [hidx]
  have hstop : ¬(1 < 1 ∧ ('/' :: c).getD 1 ' ' ≠ '/') := by
    rintro ⟨h, _⟩
    omega
  have hlen : c.length = 1 + (c.length - 1) := by
    cases c with
    | nil => exact absurd rfl hc0
    | cons a t =>
      simp
      omega
  rw [hlen]
  rw [btFind_down ('/' :: c) 1 (le_refl 1) hstop (c.length - 1) ?_]
  · rfl
  · intro i hi1 hi2
    rw [show i = (i - 1) + 1 by omega]
    rw [List.getD_cons_succ]
    have hj : i - 1 < c.length := by omega
    rw [List.getD_eq_getElem c ' ' hj]
    exact hc _ (List.getElem_mem hj)

/-- goCleanPath on a rooted path runs the rooted loop over the tail. -/
theorem goCleanPath_rooted (rem : List Char) :
    goCleanPath ('/' :: rem) =
      (if cleanRun true rem ['/'] 1 = [] then ['.'] else cleanRun true rem ['/'] 1) := by
  simp [goCleanPath, cleanRun]

/-- C10 — validateID accepts both "." and ".." (filepath.Base fixes each),
and Create's per-container path `filepath.Join(root, id)` collapses them:
for every well-formed absolute root /c1/…/cn (non-empty simple components),
the id "." makes the per-container path the state root itself, and the id
".." makes it the root's parent directory (the bare "/" when the root has a
single component) — never a fresh per-container subdirectory. -/
theorem dot_ids_target_root_and_parent (comps : List (List Char))
    (hne : comps ≠ []) (hall : ∀ c ∈ comps, simpleComp c) :
    validateID ['.'] = .ok () ∧ validateID ['.', '.'] = .ok () ∧
    containerRootPath ('/' :: interComps comps) ['.'] = '/' :: interComps comps ∧
    containerRootPath ('/' :: interComps comps) ['.', '.'] =
      (if comps.dropLast = [] then ['/'] else '/' :: interComps comps.dropLast) := by
  have hbuf : appendComps ['/'] comps = '/' :: interComps comps :=
    appendComps_root comps (fun c hc => (hall c hc).1)
  have hne2 : interComps comps ≠ [] := by
    cases comps with
    | nil => exact absurd rfl hne
    | cons c cs =>
      rw [interComps_cons]
      have hc0 := (hall c (by simp)).1
      simp [hc0]
  refine ⟨rfl, rfl, ?_, ?_⟩
  · show goJoin ('/' :: interComps comps) ['.'] = _
    unfold goJoin
    rw [if_neg (by simp)]
    rw [show ('/' :: interComps comps) ++ '/' :: ['.'] =
      '/' :: (interComps comps ++ '/' :: ['.']) by simp]
    rw [goCleanPath_rooted]
    rw [cleanRun_comps comps ['.'] ['/'] hall (by simp)]
    rw [hbuf, cleanRun_dot_end]
    rw [if_neg (by simp)]
  · show goJoin ('/' :: interComps comps) ['.', '.'] = _
    unfold goJoin
    rw [if_neg (by simp)]
    rw [show ('/' :: interComps comps) ++ '/' :: ['.', '.'] =
      '/' :: (interComps comps ++ '/' :: ['.', '.']) by simp]
    rw [goCleanPath_rooted]
    rw [cleanRun_comps comps ['.', '.'] ['/'] hall (by simp)]
    rw [hbuf]
    have hlen2 : 1 < ('/' :: interComps comps).length := by
      cases hic : interComps comps with
      | nil => exact absurd hic hne2
      | cons a t => simp
    rw [cleanRun_dotdot_end _ hlen2]
    have hback : backtrack ('/' :: interComps comps) 1 =
        (if comps.dropLast = [] then ['/'] else '/' :: interComps comps.dropLast) := by
      obtain ⟨hc0, hcs, -, -⟩ := hall (comps.getLast hne) (List.getLast_mem hne)
      by_cases hd : comps.dropLast = []
      · rw [if_pos hd]
        have hcomps : comps = [comps.getLast hne] := by
          conv_lhs => rw [← List.dropLast_append_getLast hne]
          rw [hd, List.nil_append]
        rw [hcomps]
        rw [show interComps [comps.getLast hne] = comps.getLast hne from rfl]
        exact backtrack_single _ hc0 hcs
      · rw [if_neg hd]
        conv_lhs => rw [← List.dropLast_append_getLast hne]
        rw [interComps_append_last comps.dropLast (comps.getLast hne) hd]
        rw [show ('/' :: (interComps comps.dropLast ++ '/' :: comps.getLast hne)) =
          ('/' :: interComps comps.dropLast) ++ '/' :: comps.getLast hne by simp]
        exact backtrack_strip _ _ (by simp) hcs
    rw [hback]
    have hXne : (if comps.dropLast = [] then (['/'] : List Char)
        else '/' :: interComps comps.dropLast) ≠ [] := by
      by_cases hd : comps.dropLast = [] <;> simp [hd]
    rw [if_neg hXne]

/-- C10 instantiated at the program's default root /run/hackontainer:
id "." targets the root itself, id ".." targets its parent /run. -/
theorem dot_ids_target_root_and_parent_witness :
    validateID ['.'] = .ok () ∧ validateID ['.', '.'] = .ok () ∧
    containerRootPath defaultRoot ['.'] = defaultRoot ∧
    containerRootPath defaultRoot ['.', '.'] = "/run".data := by
  have h := dot_ids_target_root_and_parent ["run".data, "hackontainer".data]
    (by decide) (by decide)
  have e1 : '/' :: interComps ["run".data, "hackontainer".data] = defaultRoot := by decide
  have e2 : (if (["run".data, "hackontainer".data] : List (List Char)).dropLast = []
      then ['/'] else
        '/' :: interComps (["run".data, "hackontainer".data] : List (List Char)).dropLast) =
      "/run".data := by decide
  rw [e1, e2] at h
  exact h

end Hackontainer
